import Mathlib

/-!
# Verification of `e007.rs` (newrustacean.com show notes, episode 7)

The Rust source defines one arithmetic function

    pub fn add(a: f64, b: f64) -> f64 { a + b }

together with a handful of unit tests (`test_add`, `test_add_badly`,
`test_will_panic`) and a test-support function
`support_function(ns: u32) -> Duration` returning `Duration::new(0, ns)`.

We give a shallow embedding:

* `F64` models IEEE-754 binary64 values: `nan`, signed infinities, and finite
  values `fin s n` representing `(-1)^s * n * 2^(-1074)` where `n : Nat`.
  Every finite double is an integer multiple of `2^(-1074)` (the smallest
  subnormal), so the magnitude of a finite double is a natural number `n`
  with odd part below `2^53` and `n ≤ maxN = (2^53 - 1) * 2^2045`
  (the largest finite double is `(2^53 - 1) * 2^971`).
* `F64.add` is IEEE-754 addition with round-to-nearest, ties-to-even:
  the exact sum of two finite doubles lives on the same `2^(-1074)` grid,
  so it is an integer which we round back to a representable magnitude
  (`roundNat`), overflowing to infinity past the IEEE boundary; signed
  zeros and NaN/infinity propagation follow the IEEE-754 rules for this
  rounding mode.
* `e007.add` is the embedding of the Rust `add` (native `f64` addition).
* The tests' bodies are embedded as `Except String Unit` values, `.error`
  standing for an assertion failure / runtime abort, and the harness's
  expected-failure rules are embedded as predicates on such values.
* `Duration.new` models Rust's `std::time::Duration::new` (nanosecond
  carry into seconds, aborting on `u64` overflow of the seconds field).
-/

/-- Fuel-driven odd part: `oddPartAux fuel n` strips factors of two from `n`,
recursing at most `fuel` times.  With `fuel ≥ n` it computes the odd part. -/
def oddPartAux : Nat → Nat → Nat
  | 0, n => n
  | fuel + 1, n => if n % 2 = 1 then n else if n = 0 then 0 else oddPartAux fuel (n / 2)

/-- The odd part of `n` (largest odd divisor; `0` for `n = 0`). -/
def oddPart (n : Nat) : Nat := oddPartAux n n

/-- Fuel-driven bit length: `bitlenAux fuel n` with `fuel ≥ n` computes the
number of binary digits of `n` (`0` for `n = 0`). -/
def bitlenAux : Nat → Nat → Nat
  | 0, _ => 0
  | fuel + 1, n => if n = 0 then 0 else bitlenAux fuel (n / 2) + 1

/-- Number of binary digits of `n`. -/
def bitlen (n : Nat) : Nat := bitlenAux n n

/-- Magnitude (in units of `2^(-1074)`) of the largest finite binary64 value,
`(2^53 - 1) * 2^971`. -/
def maxN : Nat := (2 ^ 53 - 1) * 2 ^ 2045

/-- A natural number is the magnitude (in units of `2^(-1074)`) of a finite
binary64 value iff it is at most `maxN` and its odd part fits in 53 bits. -/
def validN (n : Nat) : Bool := decide (n ≤ maxN) && decide (oddPart n < 2 ^ 53)

/-- IEEE-754 binary64 values.  `fin s n` is `(-1)^(if s then 1 else 0) * n * 2^(-1074)`;
`inf true` is `-∞`; NaN payloads are not distinguished. -/
inductive F64 : Type
  | nan : F64
  | inf : Bool → F64
  | fin : Bool → Nat → F64
  deriving DecidableEq

/-- Well-formedness: the magnitude of a finite value is representable. -/
def F64.wf : F64 → Bool
  | .nan => true
  | .inf _ => true
  | .fin _ n => validN n

/-- `true` exactly on NaN. -/
def F64.isNan : F64 → Bool
  | .nan => true
  | _ => false

/-- `true` exactly on finite values (zeros and subnormals included). -/
def F64.isFinite : F64 → Bool
  | .fin _ _ => true
  | _ => false

/-- Round `a` to a multiple of `2^shift` with quotient chosen nearest,
ties to even: the kept quotient is `a / 2^shift`, bumped by one when the
discarded remainder exceeds half of `2^shift`, or equals half of it and the
kept quotient is odd. -/
def roundCore (shift a : Nat) : Nat :=
  (if 2 ^ shift < 2 * (a % 2 ^ shift) then a / 2 ^ shift + 1
   else if 2 * (a % 2 ^ shift) < 2 ^ shift then a / 2 ^ shift
   else if (a / 2 ^ shift) % 2 = 0 then a / 2 ^ shift
   else a / 2 ^ shift + 1) * 2 ^ shift

/-- Round a nonnegative magnitude on the `2^(-1074)` grid to the nearest
magnitude with at most 53 significant bits, ties to even.  The exponent is
treated as unbounded; the overflow-to-infinity check happens in `roundF`. -/
def roundNat (a : Nat) : Nat := roundCore (bitlen a - 53) a

/-- Finish an IEEE-754 rounding: if the rounded magnitude (computed as if the
exponent range were unbounded) exceeds the largest finite value, the result is
an infinity of the given sign; otherwise it is finite. -/
def roundF (neg : Bool) (a : Nat) : F64 :=
  let m := roundNat a
  if maxN < m then F64.inf neg else F64.fin neg m

/-- The signed integer value (in units of `2^(-1074)`) of a finite `F64`. -/
def F64.sval (s : Bool) (n : Nat) : Int := if s then -(n : Int) else (n : Int)

/-- IEEE-754 binary64 addition, round-to-nearest ties-to-even:
NaN propagates; opposite infinities give NaN; an infinity absorbs any finite
value; finite values are added exactly on the `2^(-1074)` grid and rounded.
An exact zero sum is `-0` only when both addends are `-0` (round-to-nearest). -/
def F64.add : F64 → F64 → F64
  | .nan, _ => .nan
  | _, .nan => .nan
  | .inf s1, .inf s2 => if s1 = s2 then .inf s1 else .nan
  | .inf s1, .fin _ _ => .inf s1
  | .fin _ _, .inf s2 => .inf s2
  | .fin s1 n1, .fin s2 n2 =>
      let s : Int := F64.sval s1 n1 + F64.sval s2 n2
      if s = 0 then .fin (s1 && s2) 0
      else roundF (decide (s < 0)) s.natAbs

/-- IEEE-754 equality (Rust `==` on `f64`): NaN compares unequal to
everything, `+0` and `-0` compare equal, other values compare structurally. -/
def F64.ieeeEq : F64 → F64 → Bool
  | .nan, _ => false
  | _, .nan => false
  | .inf s1, .inf s2 => s1 == s2
  | .inf _, .fin _ _ => false
  | .fin _ _, .inf _ => false
  | .fin s1 n1, .fin s2 n2 => (n1 == 0 && n2 == 0) || (s1 == s2 && n1 == n2)

/-- The double `0.0`. -/
def F64.zero : F64 := .fin false 0

/-- The double `1.0` (`= 2^1074` units of `2^(-1074)`). -/
def F64.one : F64 := .fin false (2 ^ 1074)

/-- The double `2.0`. -/
def F64.two : F64 := .fin false (2 ^ 1075)

/-- The double `4.0`. -/
def F64.four : F64 := .fin false (2 ^ 1076)

/-- The double `5.0` (`= 5 * 2^1074` units of `2^(-1074)`). -/
def F64.five : F64 := .fin false (5 * 2 ^ 1074)

/-- `true` exactly on the two zeros. -/
def F64.isZero : F64 → Bool
  | .fin _ 0 => true
  | _ => false

namespace e007

/-- Embedding of the Rust `pub fn add(a: f64, b: f64) -> f64 { a + b }`:
its body is exactly native `f64` addition. -/
def add (a b : F64) : F64 := F64.add a b

/-- Embedding of the body of `#[test] fn test_add { assert_eq!(add(2.0, 2.0), 4.0); }`.
An `assert_eq!` that fails aborts the test with a message, modelled by `.error`. -/
def test_add : Except String Unit :=
  if (add F64.two F64.two).ieeeEq F64.four then .ok ()
  else .error "assertion failed: add(2.0, 2.0) == 4.0"

namespace tests

/-- Embedding of the body of the `#[test] #[should_panic]` function
`fn test_add_badly { assert_eq!(add(2.0, 2.0), 5.0); }`. -/
def test_add_badly : Except String Unit :=
  if (add F64.two F64.two).ieeeEq F64.five then .ok ()
  else .error "assertion failed: add(2.0, 2.0) == 5.0"

/-- Embedding of the body of the test marked
`#[should_panic(expected = "Crazed monkeys!")]`: it unconditionally aborts
with the message `"Crazed monkeys!"`. -/
def test_will_panic : Except String Unit := .error "Crazed monkeys!"

end tests
end e007

/-- The characters of `needle` begin the list `hay`. -/
def listLeadsWith : List Char → List Char → Bool
  | [], _ => true
  | _ :: _, [] => false
  | a :: as, b :: bs => a == b && listLeadsWith as bs

/-- `needle` occurs as a contiguous run inside `hay`. -/
def listHasRun : List Char → List Char → Bool
  | needle, [] => listLeadsWith needle []
  | needle, c :: rest => listLeadsWith needle (c :: rest) || listHasRun needle rest

/-- The harness rule for `#[should_panic]`: the test passes iff its body
aborts, with any message. -/
def shouldPanic : Except String Unit → Bool
  | .ok _ => false
  | .error _ => true

/-- The harness rule for `#[should_panic(expected = e)]`: the test passes iff
its body aborts with a message containing `e` as a substring. -/
def shouldPanicExpected (e : String) : Except String Unit → Bool
  | .ok _ => false
  | .error m => listHasRun e.data m.data

/-- Nanoseconds per second, as in `std::time::Duration`. -/
def NANOS_PER_SEC : Nat := 1000000000

/-- Model of `std::time::Duration`: whole seconds (a `u64`) plus a subsecond
nanosecond count below `NANOS_PER_SEC`. -/
structure Duration where
  secs : Nat
  nanos : Nat
  deriving DecidableEq

/-- Model of `Duration::new(secs, nanos)`: nanoseconds of a second or more
carry into the seconds; the constructor aborts (modelled by `none`) when the
carried seconds overflow `u64`. -/
def Duration.new (secs nanos : Nat) : Option Duration :=
  if secs + nanos / NANOS_PER_SEC < 2 ^ 64 then
    some ⟨secs + nanos / NANOS_PER_SEC, nanos % NANOS_PER_SEC⟩
  else none

namespace e007.tests

/-- Embedding of the test-support function
`fn support_function(ns: u32) -> Duration { Duration::new(0, ns) }`;
the `u32` argument is a `Nat` below `2^32`. -/
def support_function (ns : Nat) : Option Duration := Duration.new 0 ns

end e007.tests

/-! ### Arithmetic facts about `oddPart`, `bitlen` and `validN` -/

/-- With enough fuel, `oddPartAux` returns an odd number that divides its
input exactly by a power of two. -/
theorem oddPartAux_spec (fuel : Nat) : ∀ n, n ≤ fuel → n ≠ 0 →
    oddPartAux fuel n % 2 = 1 ∧ ∃ v, n = oddPartAux fuel n * 2 ^ v := by
  induction fuel with
  | zero => intro n hle hne; omega
  | succ fuel ih =>
    intro n hle hne
    by_cases h1 : n % 2 = 1
    · refine ⟨by simp [oddPartAux, h1], 0, by simp [oddPartAux, h1]⟩
    · have h2 : n % 2 = 0 := by omega
      have hrw : oddPartAux (fuel + 1) n = oddPartAux fuel (n / 2) := by
        simp [oddPartAux, h1, hne]
      obtain ⟨hodd, v, hv⟩ := ih (n / 2) (by omega) (by omega)
      rw [hrw]
      generalize hgen : oddPartAux fuel (n / 2) = o at hodd hv ⊢
      refine ⟨hodd, v + 1, ?_⟩
      have h4 : n = 2 * (o * 2 ^ v) := by
        rw [← hv]
        omega
      rw [h4, pow_succ]
      ring

/-- The odd part of a nonzero number is odd and divides it by a power of two. -/
theorem oddPart_spec (n : Nat) (h : n ≠ 0) :
    oddPart n % 2 = 1 ∧ ∃ v, n = oddPart n * 2 ^ v :=
  oddPartAux_spec n n le_rfl h

/-- A factorization `m * 2^v` with `m` odd is unique. -/
theorem odd_mul_pow_inj (v1 : Nat) : ∀ v2 m1 m2, m1 % 2 = 1 → m2 % 2 = 1 →
    m1 * 2 ^ v1 = m2 * 2 ^ v2 → m1 = m2 ∧ v1 = v2 := by
  induction v1 with
  | zero =>
    intro v2 m1 m2 h1 h2 heq
    cases v2 with
    | zero => simpa using heq
    | succ v2 =>
      exfalso
      rw [pow_succ, pow_zero, mul_one, ← mul_assoc] at heq
      omega
  | succ v1 ih =>
    intro v2 m1 m2 h1 h2 heq
    cases v2 with
    | zero =>
      exfalso
      rw [pow_succ, pow_zero, mul_one, ← mul_assoc] at heq
      omega
    | succ v2 =>
      rw [pow_succ, pow_succ, ← mul_assoc, ← mul_assoc] at heq
      have heq' : m1 * 2 ^ v1 = m2 * 2 ^ v2 := by omega
      obtain ⟨hm, hv⟩ := ih v2 m1 m2 h1 h2 heq'
      exact ⟨hm, by omega⟩

/-- A magnitude is `validN` iff it is bounded by `maxN` and has at most 53
significant bits. -/
theorem validN_iff (n : Nat) : validN n = true ↔
    n ≤ maxN ∧ ∃ m v, n = m * 2 ^ v ∧ m < 2 ^ 53 := by
  constructor
  · intro h
    simp only [validN, Bool.and_eq_true, decide_eq_true_eq] at h
    obtain ⟨hle, hlt⟩ := h
    refine ⟨hle, ?_⟩
    by_cases hn : n = 0
    · exact ⟨0, 0, by simp [hn], by norm_num⟩
    · obtain ⟨hodd, v, hv⟩ := oddPart_spec n hn
      exact ⟨oddPart n, v, hv, hlt⟩
  · rintro ⟨hle, m, v, hv, hm⟩
    simp only [validN, Bool.and_eq_true, decide_eq_true_eq]
    refine ⟨hle, ?_⟩
    by_cases hn : n = 0
    · subst hn
      have : oddPart 0 = 0 := rfl
      rw [this]
      norm_num
    · have hm0 : m ≠ 0 := by
        intro h0
        rw [h0, zero_mul] at hv
        exact hn hv
      obtain ⟨hoddn, w, hw⟩ := oddPart_spec n hn
      obtain ⟨hoddm, u, hu⟩ := oddPart_spec m hm0
      generalize hgn : oddPart n = pn at hoddn hw ⊢
      generalize hgm : oddPart m = pm at hoddm hu
      have hfac : n = pm * 2 ^ (u + v) := by
        rw [pow_add, ← mul_assoc, ← hu, ← hv]
      have hinj := odd_mul_pow_inj w (u + v) pn pm hoddn hoddm (by rw [← hw, ← hfac])
      have hle2 : pm ≤ m := by
        calc pm = pm * 1 := (mul_one _).symm
          _ ≤ pm * 2 ^ u := Nat.mul_le_mul_left _ (Nat.one_le_pow _ _ (by norm_num))
          _ = m := hu.symm
      omega

/-- A valid magnitude is at most `maxN`. -/
theorem le_maxN_of_valid (n : Nat) (h : validN n = true) : n ≤ maxN :=
  ((validN_iff n).mp h).1

/-- The zero magnitude is valid. -/
theorem validN_zero : validN 0 = true :=
  (validN_iff 0).mpr ⟨Nat.zero_le _, 0, 0, by simp, by norm_num⟩

/-- `bitlenAux` of `0` is `0` for every fuel. -/
theorem bitlenAux_zero (fuel : Nat) : bitlenAux fuel 0 = 0 := by
  cases fuel <;> simp [bitlenAux]

/-- With enough fuel, `bitlenAux` bounds its input between consecutive
powers of two. -/
theorem bitlenAux_spec (fuel : Nat) : ∀ n, n ≤ fuel →
    n < 2 ^ bitlenAux fuel n ∧ (n ≠ 0 → 2 ^ bitlenAux fuel n ≤ 2 * n) := by
  induction fuel with
  | zero =>
    intro n hle
    have hn : n = 0 := by omega
    subst hn
    exact ⟨by simp [bitlenAux], by omega⟩
  | succ fuel ih =>
    intro n hle
    by_cases hn : n = 0
    · subst hn
      exact ⟨by simp [bitlenAux], by omega⟩
    · have hrw : bitlenAux (fuel + 1) n = bitlenAux fuel (n / 2) + 1 := by
        simp [bitlenAux, hn]
      obtain ⟨ihlt, ihge⟩ := ih (n / 2) (by omega)
      rw [hrw]
      constructor
      · rw [pow_succ]
        omega
      · intro _
        by_cases hh : n / 2 = 0
        · have h1 : n = 1 := by omega
          subst h1
          rw [hh, bitlenAux_zero]
          norm_num
        · have := ihge hh
          rw [pow_succ]
          omega

/-- `n` fits in `bitlen n` bits. -/
theorem bitlen_lt (n : Nat) : n < 2 ^ bitlen n :=
  (bitlenAux_spec n n le_rfl).1

/-- For `n ≠ 0`, `2^(bitlen n)` is at most `2 * n`. -/
theorem two_pow_bitlen_le (n : Nat) (h : n ≠ 0) : 2 ^ bitlen n ≤ 2 * n :=
  (bitlenAux_spec n n le_rfl).2 h

/-- `bitlen` is the least bit count: `n < 2^k` forces `bitlen n ≤ k`. -/
theorem bitlen_le_of_lt (n k : Nat) (h : n < 2 ^ k) : bitlen n ≤ k := by
  by_cases hn : n = 0
  · subst hn
    rw [bitlen, bitlenAux_zero]
    exact Nat.zero_le k
  · by_contra hc
    push_neg at hc
    have h1 : 2 ^ bitlen n ≤ 2 * n := two_pow_bitlen_le n hn
    have h2 : (2 : Nat) * n < 2 ^ (k + 1) := by
      rw [pow_succ]
      omega
    have h3 : 2 ^ (k + 1) ≤ 2 ^ bitlen n := Nat.pow_le_pow_right (by norm_num) (by omega)
    omega

/-! ### Rounding lemmas -/

/-- `roundCore` is the identity on multiples of `2^shift`. -/
theorem roundCore_dvd_id (shift a : Nat) (h : 2 ^ shift ∣ a) : roundCore shift a = a := by
  have hpos : 0 < 2 ^ shift := pow_pos (by norm_num) shift
  have hr : a % 2 ^ shift = 0 := by
    obtain ⟨c, hc⟩ := h
    rw [hc]
    exact Nat.mul_mod_right _ _
  unfold roundCore
  rw [hr, if_neg (by omega), if_pos (by omega)]
  exact Nat.div_mul_cancel h

/-- Any `roundCore` result on an input below `2^(53+shift)` is a multiple of
a power of two by a factor with at most 53 significant bits. -/
theorem roundCore_rep (shift a : Nat) (h : a < 2 ^ (53 + shift)) :
    ∃ m v, roundCore shift a = m * 2 ^ v ∧ m < 2 ^ 53 := by
  have hq : a / 2 ^ shift < 2 ^ 53 := by
    apply Nat.div_lt_of_lt_mul
    rw [← pow_add, Nat.add_comm]
    exact h
  have hrep : ∀ c : Nat, c ≤ 2 ^ 53 → ∃ m v, c * 2 ^ shift = m * 2 ^ v ∧ m < 2 ^ 53 := by
    intro c hc
    rcases Nat.lt_or_ge c (2 ^ 53) with hlt | hge
    · exact ⟨c, shift, rfl, hlt⟩
    · have hce : c = 2 ^ 53 := le_antisymm hc hge
      subst hce
      refine ⟨2 ^ 52, shift + 1, ?_, by norm_num⟩
      ring
  unfold roundCore
  split_ifs with h1 h2 h3
  · exact hrep _ (by omega)
  · exact hrep _ (by omega)
  · exact hrep _ (by omega)
  · exact hrep _ (by omega)

/-- Every magnitude satisfies the input bound `roundNat` feeds `roundCore`. -/
theorem lt_two_pow_shift (a : Nat) : a < 2 ^ (53 + (bitlen a - 53)) :=
  lt_of_lt_of_le (bitlen_lt a) (Nat.pow_le_pow_right (by norm_num) (by omega))

/-- `roundNat` always outputs a magnitude with at most 53 significant bits. -/
theorem roundNat_rep (a : Nat) : ∃ m v, roundNat a = m * 2 ^ v ∧ m < 2 ^ 53 :=
  roundCore_rep _ a (lt_two_pow_shift a)

/-- `roundNat` is the identity on valid magnitudes. -/
theorem roundNat_id (n : Nat) (hv : validN n = true) : roundNat n = n := by
  by_cases hn : n = 0
  · subst hn
    decide
  · obtain ⟨hle, m, v, hfac, hm⟩ := (validN_iff n).mp hv
    apply roundCore_dvd_id
    have hlt : n < 2 ^ (53 + v) := by
      rw [pow_add, hfac]
      exact mul_lt_mul_of_pos_right hm (pow_pos (by norm_num) v)
    have hble : bitlen n - 53 ≤ v := by
      have := bitlen_le_of_lt n (53 + v) hlt
      omega
    exact dvd_trans (pow_dvd_pow 2 hble) ⟨m, by rw [hfac]; ring⟩

/-- `roundF` always produces a well-formed value. -/
theorem roundF_wf (neg : Bool) (a : Nat) : F64.wf (roundF neg a) = true := by
  unfold roundF
  by_cases hm : maxN < roundNat a
  · rw [if_pos hm]
    rfl
  · rw [if_neg hm]
    show validN (roundNat a) = true
    obtain ⟨m, v, hfac, hlt⟩ := roundNat_rep a
    exact (validN_iff _).mpr ⟨by omega, m, v, hfac, hlt⟩

/-- On a valid magnitude, `roundF` returns the corresponding finite value. -/
theorem roundF_valid_eq (neg : Bool) (n : Nat) (hv : validN n = true) :
    roundF neg n = F64.fin neg n := by
  unfold roundF
  rw [roundNat_id n hv, if_neg (by have := le_maxN_of_valid n hv; omega)]

/-! ### Properties of IEEE addition -/

/-- IEEE addition yields a well-formed value on any constructor inputs. -/
theorem F64.add_wf (a b : F64) : F64.wf (F64.add a b) = true := by
  cases a with
  | nan => cases b <;> rfl
  | inf s1 =>
    cases b with
    | nan => rfl
    | inf s2 => by_cases h : s1 = s2 <;> simp [F64.add, h, F64.wf]
    | fin s2 n2 => rfl
  | fin s1 n1 =>
    cases b with
    | nan => rfl
    | inf s2 => rfl
    | fin s2 n2 =>
      simp only [F64.add]
      by_cases h : F64.sval s1 n1 + F64.sval s2 n2 = 0
      · rw [if_pos h]
        show validN 0 = true
        exact validN_zero
      · rw [if_neg h]
        exact roundF_wf _ _

/-- IEEE addition is commutative. -/
theorem F64.add_symm (a b : F64) : F64.add a b = F64.add b a := by
  cases a with
  | nan => cases b <;> rfl
  | inf s1 =>
    cases b with
    | nan => rfl
    | inf s2 =>
      by_cases h : s1 = s2
      · subst h
        rfl
      · have h' : ¬s2 = s1 := fun hh => h hh.symm
        simp [F64.add, h, h']
    | fin s2 n2 => rfl
  | fin s1 n1 =>
    cases b with
    | nan => rfl
    | inf s2 => rfl
    | fin s2 n2 =>
      simp only [F64.add]
      rw [Int.add_comm (F64.sval s2 n2) (F64.sval s1 n1), Bool.and_comm s2 s1]

/-- Adding positive zero to a finite, valid, nonzero value returns it exactly. -/
theorem F64.add_zero_aux (s : Bool) (n : Nat) (hv : validN n = true) (hn : n ≠ 0) :
    F64.add (F64.fin s n) F64.zero = F64.fin s n := by
  have h3 : F64.sval s n ≠ 0 := by
    cases s <;> simp [F64.sval] <;> omega
  have h4 : (F64.sval s n).natAbs = n := by
    cases s <;> simp [F64.sval]
  have h5 : decide (F64.sval s n < 0) = s := by
    cases s <;> simp [F64.sval] <;> omega
  show F64.add (F64.fin s n) (F64.fin false 0) = F64.fin s n
  simp only [F64.add]
  rw [show F64.sval false 0 = 0 from rfl, Int.add_zero, if_neg h3, h5, h4]
  exact roundF_valid_eq s n hv

/-! ### Claim theorems -/

set_option maxRecDepth 80000

/-- C1: for every pair of finite doubles `a` and `b`, `add(a, b)` returns
exactly the IEEE-754 double-precision sum `a + b` (native addition). -/
theorem add_returns_native_sum (a b : F64) (ha : a.isFinite = true)
    (hb : b.isFinite = true) : e007.add a b = F64.add a b := rfl

/-- Witness for C1 at `a = 2.0`, `b = 1.0`. -/
theorem add_returns_native_sum_witness :
    F64.two.isFinite = true ∧ F64.one.isFinite = true ∧
      e007.add F64.two F64.one = F64.add F64.two F64.one :=
  ⟨by decide, by decide, add_returns_native_sum F64.two F64.one (by decide) (by decide)⟩

/-- C2: `add` is commutative on finite inputs:
`add(a, b) == add(b, a)`. -/
theorem add_commutative (a b : F64) (ha : a.isFinite = true)
    (hb : b.isFinite = true) : e007.add a b = e007.add b a :=
  F64.add_symm a b

/-- Witness for C2 at `a = 2.0`, `b = 1.0`. -/
theorem add_commutative_witness :
    F64.two.isFinite = true ∧ F64.one.isFinite = true ∧
      e007.add F64.two F64.one = e007.add F64.one F64.two :=
  ⟨by decide, by decide, add_commutative F64.two F64.one (by decide) (by decide)⟩

/-- C3: `add` propagates non-finite values per IEEE-754:
`add(NaN, 1.0)` is NaN, and `add(+Infinity, -Infinity)` is NaN. -/
theorem add_nonfinite_propagation :
    (e007.add F64.nan F64.one).isNan = true ∧
      (e007.add (F64.inf false) (F64.inf true)).isNan = true :=
  ⟨rfl, rfl⟩

/-- C4: `add(2.0, 2.0) == 4.0`, the literal regression case of `test_add`. -/
theorem add_two_two_eq_four : e007.add F64.two F64.two = F64.four := by decide

/-- C5: `add(2.0, 2.0) != 5.0`, so the assertion `add(2.0, 2.0) == 5.0` of
the `#[should_panic]` test `test_add_badly` always fails (aborts). -/
theorem add_two_two_ne_five :
    (e007.add F64.two F64.two).ieeeEq F64.five = false ∧
      e007.tests.test_add_badly = Except.error "assertion failed: add(2.0, 2.0) == 5.0" ∧
      shouldPanic e007.tests.test_add_badly = true :=
  ⟨by decide, rfl, by decide⟩

/-- C6: `add` is total: for every representable input pair (NaN, infinities,
zeros and subnormals included) it returns a representable double without
failing. -/
theorem add_total_on_doubles (a b : F64) (ha : F64.wf a = true)
    (hb : F64.wf b = true) : F64.wf (e007.add a b) = true :=
  F64.add_wf a b

/-- Witness for C6 at `a = 2.0`, `b = 1.0`. -/
theorem add_total_on_doubles_witness :
    F64.wf F64.two = true ∧ F64.wf F64.one = true ∧
      F64.wf (e007.add F64.two F64.one) = true :=
  ⟨by decide, by decide, add_total_on_doubles F64.two F64.one (by decide) (by decide)⟩

/-- C7: `add` is pure and deterministic: equal input pairs give identical
results (the shallow embedding is a pure function, so a call has no side
effects by construction). -/
theorem add_deterministic (a b a' b' : F64) (h1 : a = a') (h2 : b = b') :
    e007.add a b = e007.add a' b' := by
  rw [h1, h2]

/-- Witness for C7 at `a = a' = 2.0`, `b = b' = 1.0`. -/
theorem add_deterministic_witness :
    F64.two = F64.two ∧ F64.one = F64.one ∧
      e007.add F64.two F64.one = e007.add F64.two F64.one :=
  ⟨rfl, rfl, add_deterministic F64.two F64.one F64.two F64.one rfl rfl⟩

/-- C8: the body of `test_will_panic` always aborts with a message matching
the substring `"Crazed monkeys!"`, so the test passes under the harness's
should-abort-with-expected-message rule. -/
theorem will_panic_passes_expected :
    shouldPanicExpected "Crazed monkeys!" e007.tests.test_will_panic = true := by
  decide

/-- C9: for every `u32` value `ns`, `support_function(ns)` returns, without
failing, a `Duration` whose total length in nanoseconds is exactly `ns`. -/
theorem support_function_duration_spec (ns : Nat) (h : ns < 2 ^ 32) :
    ∃ d, e007.tests.support_function ns = some d ∧
      d.nanos < NANOS_PER_SEC ∧ d.secs * NANOS_PER_SEC + d.nanos = ns := by
  refine ⟨⟨0 + ns / NANOS_PER_SEC, ns % NANOS_PER_SEC⟩, ?_, ?_, ?_⟩
  · unfold e007.tests.support_function Duration.new
    rw [if_pos]
    have h1 : ns / NANOS_PER_SEC ≤ ns := Nat.div_le_self _ _
    have h2 : (2 : Nat) ^ 32 ≤ 2 ^ 64 := by norm_num
    omega
  · exact Nat.mod_lt _ (by norm_num [NANOS_PER_SEC])
  · simp only [NANOS_PER_SEC]
    omega

/-- Witness for C9 at `ns = 10`, the value used by the sleep benchmark. -/
theorem support_function_duration_spec_witness :
    10 < 2 ^ 32 ∧ ∃ d, e007.tests.support_function 10 = some d ∧
      d.nanos < NANOS_PER_SEC ∧ d.secs * NANOS_PER_SEC + d.nanos = 10 :=
  ⟨by norm_num, support_function_duration_spec 10 (by norm_num)⟩

/-- C10: `0.0` is a right identity for `add` on finite nonzero inputs:
for finite `a` that is not a zero, `add(a, 0.0)` is exactly `a`. -/
theorem add_zero_right_identity (a : F64) (hw : F64.wf a = true)
    (hf : a.isFinite = true) (hz : a.isZero = false) :
    e007.add a F64.zero = a := by
  cases a with
  | nan => simp [F64.isFinite] at hf
  | inf s => simp [F64.isFinite] at hf
  | fin s n =>
    have hn : n ≠ 0 := by
      intro h0
      subst h0
      simp [F64.isZero] at hz
    exact F64.add_zero_aux s n hw hn

/-- Witness for C10 at `a = 2.0`. -/
theorem add_zero_right_identity_witness :
    F64.wf F64.two = true ∧ F64.two.isFinite = true ∧ F64.two.isZero = false ∧
      e007.add F64.two F64.zero = F64.two :=
  ⟨by decide, by decide, by decide,
    add_zero_right_identity F64.two (by decide) (by decide) (by decide)⟩
